import Mathlib

/-
Shallow embedding of src/route_fairness.py.

Numeric values (coordinates, ascent/descent/distance, difficulty scores)
are modelled as rationals.  Python dicts keyed by strings are modelled as
association lists kept in insertion order; both `route_table` and
`pickup_table` are modelled as lists of records in insertion order
(dict keys are unique in the program, so positional correspondence over
these lists matches iteration over the dicts).  Operations that can raise
a Python runtime exception (KeyError, TypeError on None arithmetic or
comparison, ZeroDivisionError, IndexError, AssertionError) are modelled
as Option-valued functions returning none in the exceptional case.
-/

/-- `pickup['path']` as written by `RouteFairness.get_path`: either the
dictionary returned by `Geography.navigate`, or the fallback dictionary
with every value `None` (modelled as `none`). -/
structure PathInfo where
  geometry : Option (List (ℚ × ℚ × ℚ))
  ascent : Option ℚ
  descent : Option ℚ
  distance : Option ℚ
  deriving DecidableEq

/-- One row of `pickup_table` (tab-separated input columns that the program
reads, plus the mutable `path` and `difficulty` entries added by the
program).  `difficulty` is the dict indicator name -> score, kept as an
association list in insertion order. -/
structure Pickup where
  id : String
  route_id : String
  longitude : ℚ
  latitude : ℚ
  house_number : String
  street : String
  path : PathInfo
  difficulty : List (String × ℚ)
  deriving DecidableEq

/-- One row of `route_table` (comma-separated input columns the program
reads, plus the mutable `difficulty` accumulator and `num_pickups`
counter added in `__init__`). -/
structure Route where
  indexnum : String
  destination : String
  route_name : String
  difficulty : List (String × ℚ)
  num_pickups : Nat
  deriving DecidableEq

/-- Module constant LOCUST_ST_COORDS. -/
def LOCUST_ST_COORDS : ℚ × ℚ := (-72.65808105468751, 42.33334765235137)

/-- Module constant VALLEY_RECYC_COORDS (defined in the source but never
passed to `navigate`; see `get_path`). -/
def VALLEY_RECYC_COORDS : ℚ × ℚ := (-72.65505552291872, 42.30060518470567)

/-- One entry of `directions['properties']['segments']` in the
openrouteservice response (only the field the program reads). -/
structure OrsSegment where
  distance : ℚ
  deriving DecidableEq

/-- One entry of the `features` list of the openrouteservice response
(only the fields the program reads). -/
structure OrsFeature where
  coordinates : List (ℚ × ℚ × ℚ)
  ascent : ℚ
  descent : ℚ
  segments : List OrsSegment
  deriving DecidableEq

/-- `Geography.navigate`, applied to the `features` list of the service
response.  `['features'][0]` on an empty list raises IndexError (none);
the `assert len(segments) == 1` raises AssertionError (none) unless the
first feature has exactly one segment; otherwise the returned dict is
built from the feature and its single segment. -/
def navigate (features : List OrsFeature) : Option PathInfo :=
  match features with
  | [] => none
  | directions :: _ =>
    match directions.segments with
    | [seg] => some { geometry := some directions.coordinates,
                      ascent := some directions.ascent,
                      descent := some directions.descent,
                      distance := some seg.distance }
    | _ => none

/-- The fallback path dictionary `{'geometry': None, 'ascent': None,
'descent': None, 'distance': None}` stored by the default branch of
`get_path`. -/
def noPath : PathInfo :=
  { geometry := none, ascent := none, descent := none, distance := none }

/-- `RouteFairness.get_path`, parametrised by the path provider `nav`
(standing for `self.geography.navigate` composed with the service call)
and by the destination classification of the pickup's route.  The
Python `match`/`case` on string literals is sequential equality
testing. -/
def get_path (nav : (ℚ × ℚ) → (ℚ × ℚ) → PathInfo) (destination : String)
    (pickup : Pickup) : PathInfo :=
  let pickup_coords := (pickup.longitude, pickup.latitude)
  if destination = "Locust" then nav pickup_coords LOCUST_ST_COORDS
  else if destination = "Valley" then nav pickup_coords LOCUST_ST_COORDS
  else noPath

/-- An entry of `self.difficulty_indicators`: the raw-value extraction
function over a pickup, and the output key the score is stored under.
Extraction is Option-valued: reading a `None` path field (the `noPath`
fallback) cannot produce a usable number — in Python `None * -1` raises
TypeError immediately and a raw `None` raises TypeError at the
`score < min` comparison, so either way the scoring loop dies before
storing anything; we model both as extraction failure. -/
abbrev Indicator := (Pickup → Option ℚ) × String

/-- `self.difficulty_indicators` from `RouteFairness.__init__`. -/
def difficulty_indicators : List (String × Indicator) :=
  [ ("ascent", (fun pickup => pickup.path.ascent, "ascent")),
    ("descent", (fun pickup => pickup.path.descent.map (fun d => d * (-1)),
      "descent")),
    ("distance", (fun pickup => pickup.path.distance, "distance")) ]

/-- Dict read `d[k]` on a string-keyed dict (none = KeyError). -/
def dictGet : List (String × ℚ) → String → Option ℚ
  | [], _ => none
  | kv :: rest, k => if kv.1 = k then some kv.2 else dictGet rest k

/-- Dict write `d[k] = v`: replace the value at an existing key, else
append the new key at the end (insertion order). -/
def dictSet : List (String × ℚ) → String → ℚ → List (String × ℚ)
  | [], k, v => [(k, v)]
  | kv :: rest, k, v =>
    if kv.1 = k then (kv.1, v) :: rest else kv :: dictSet rest k v

/-- `self.difficulty_indicators[indicator]` (none = KeyError). -/
def lookupIndicator (name : String) : Option Indicator :=
  match difficulty_indicators.find? (fun entry => entry.1 == name) with
  | some entry => some entry.2
  | none => none

/-- The list comprehension
`[self.difficulty_indicators[indicator] for indicator in args]`
(none when any name is missing, i.e. KeyError). -/
def resolveIndicators : List String → Option (List Indicator)
  | [] => some []
  | n :: rest =>
    match lookupIndicator n, resolveIndicators rest with
    | some i, some is => some (i :: is)
    | _, _ => none

/-- The first loop of `score_pickups` for one indicator: compute
`indicator[0](pickup)` for every pickup in table order, failing if any
extraction raises. -/
def extractRaws (f : Pickup → Option ℚ) : List Pickup → Option (List ℚ)
  | [] => some []
  | p :: ps =>
    match f p, extractRaws f ps with
    | some r, some rs => some (r :: rs)
    | _, _ => none

/-- The running minimum accumulated by `min = math.inf; if score < min:`
over the scores list (none on an empty list, where `min` stays `inf`).
The accumulated value is order-independent, so a right fold gives the
same number as the source's left-to-right loop. -/
def loopMin : List ℚ → Option ℚ
  | [] => none
  | x :: xs =>
    match loopMin xs with
    | none => some x
    | some m => some (min x m)

/-- The running maximum accumulated by `max = math.inf * -1;
if score > max:` over the scores list (none on an empty list). -/
def loopMax : List ℚ → Option ℚ
  | [] => none
  | x :: xs =>
    match loopMax xs with
    | none => some x
    | some m => some (max x m)

/-- One iteration of the outer loop of `score_pickups`, for a single
indicator `(f, key)`: compute all raw scores and their min/max, then
store `(scores[id] - min) / (max - min)` into each pickup's difficulty
dict.  When the table is empty the second loop has no iterations and the
table is returned unchanged; when `max - min == 0` the first division
raises ZeroDivisionError (none) before any score is stored.
`applyScore` is the body of the storing loop for one pickup paired with
its raw score. -/
def applyScore (key : String) (mn mx : ℚ) (pr : Pickup × ℚ) : Pickup :=
  { pr.1 with
    difficulty := dictSet pr.1.difficulty key ((pr.2 - mn) / (mx - mn)) }

def scoreIndicator (f : Pickup → Option ℚ) (key : String)
    (table : List Pickup) : Option (List Pickup) :=
  match extractRaws f table with
  | none => none
  | some raws =>
    match loopMin raws, loopMax raws with
    | some mn, some mx =>
      if mx - mn = 0 then none
      else some ((table.zip raws).map (applyScore key mn mx))
    | _, _ => some table

/-- The outer loop of `score_pickups` over the resolved indicators. -/
def scoreAll : List Indicator → List Pickup → Option (List Pickup)
  | [], table => some table
  | i :: rest, table =>
    match scoreIndicator i.1 i.2 table with
    | none => none
    | some table1 => scoreAll rest table1

/-- `RouteFairness.score_pickups(*args)`. -/
def score_pickups (args : List String) (pickup_table : List Pickup) :
    Option (List Pickup) :=
  match resolveIndicators args with
  | none => none
  | some indicators => scoreAll indicators pickup_table

/-- The inner loop of the first phase of `score_routes`:
`for indicator in pickup['difficulty']:
   route['difficulty'][indicator] += pickup['difficulty'][indicator]`.
In the program the route and pickup difficulty dicts are created with
the same keys, so the route-side KeyError branch is unreachable; the
embedding updates the matching route entry and leaves entries with
unmatched keys alone. -/
def addInto (routeDiff pickupDiff : List (String × ℚ)) : List (String × ℚ) :=
  pickupDiff.foldl (fun acc kv =>
    acc.map (fun rv => if rv.1 = kv.1 then (rv.1, rv.2 + kv.2) else rv))
    routeDiff

/-- The body of the first phase of `score_routes` for one pickup:
`route = self.route_table[pickup['route_id']]` followed by the counter
increment and the difficulty accumulation, applied to the route whose
key (`indexnum`) equals the pickup's `route_id`. -/
def bumpRoute (p : Pickup) (r : Route) : Route :=
  if p.route_id = r.indexnum then
    { r with num_pickups := r.num_pickups + 1,
             difficulty := addInto r.difficulty p.difficulty }
  else r

/-- `RouteFairness.score_routes`: accumulate every pickup into its owning
route, then divide each accumulated indicator value by the pickup
counter for routes with a nonzero counter, and finally delete every
route whose counter stayed 0. -/
def score_routes (route_table : List Route) (pickup_table : List Pickup) :
    List Route :=
  let accumulated := pickup_table.foldl
    (fun rs p => rs.map (bumpRoute p)) route_table
  let averaged := accumulated.map (fun r =>
    if r.num_pickups = 0 then r
    else { r with
           difficulty :=
             r.difficulty.map (fun kv => (kv.1, kv.2 / (r.num_pickups : ℚ))) })
  averaged.filter (fun r => r.num_pickups ≠ 0)

/-- `RouteFairness.compute_difficulty`: score pickups then routes. -/
def compute_difficulty (args : List String) (route_table : List Route)
    (pickup_table : List Pickup) : Option (List Route × List Pickup) :=
  match score_pickups args pickup_table with
  | none => none
  | some scored => some (score_routes route_table scored, scored)

/-- A raw-value extraction function that only reads the pickup's path
(true of all three entries of `difficulty_indicators`). -/
def PathOnly (f : Pickup → Option ℚ) : Prop :=
  ∀ p q : Pickup, p.path = q.path → f p = f q

/- Concrete sample data used by the witness theorems. -/

/-- A path dictionary as returned by a successful `navigate` call. -/
def samplePath (a d s : ℚ) : PathInfo :=
  { geometry := some [], ascent := some a, descent := some d,
    distance := some s }

/-- A pickup row with freshly initialized difficulty dict and a resolved
path. -/
def samplePickup (i rid : String) (a d s : ℚ) : Pickup :=
  { id := i, route_id := rid, longitude := 0, latitude := 0,
    house_number := "1", street := "Main",
    path := samplePath a d s,
    difficulty := [("ascent", 0), ("descent", 0), ("distance", 0)] }

/-- A pickup row whose route had an unmapped destination, so `get_path`
stored the all-None fallback path. -/
def fallbackPickup (i rid : String) : Pickup :=
  { id := i, route_id := rid, longitude := 0, latitude := 0,
    house_number := "2", street := "Main",
    path := noPath,
    difficulty := [("ascent", 0), ("descent", 0), ("distance", 0)] }

/-- A route row as produced by `__init__` (zeroed accumulator and
counter). -/
def sampleRoute (i dest : String) : Route :=
  { indexnum := i, destination := dest, route_name := i,
    difficulty := [("ascent", 0), ("descent", 0), ("distance", 0)],
    num_pickups := 0 }

/-- C5: for a destination classification outside the fixed dispatch set
(neither "Locust" nor "Valley"), `get_path` returns normally with every
path field absent, and the result does not depend on the path provider
(the provider is never invoked on that branch). -/
theorem get_path_unmapped_fallback
    (nav nav' : (ℚ × ℚ) → (ℚ × ℚ) → PathInfo)
    (destination : String) (pickup : Pickup)
    (h1 : destination ≠ "Locust") (h2 : destination ≠ "Valley") :
    get_path nav destination pickup = noPath ∧
    get_path nav destination pickup = get_path nav' destination pickup := by
  simp [get_path, h1, h2]

theorem get_path_unmapped_fallback_witness :
    get_path (fun _ _ => samplePath 1 2 3) "Unknown"
      (fallbackPickup "P3" "R2") = noPath ∧
    get_path (fun _ _ => samplePath 1 2 3) "Unknown"
      (fallbackPickup "P3" "R2") =
      get_path (fun _ _ => samplePath 4 5 6) "Unknown"
        (fallbackPickup "P3" "R2") :=
  get_path_unmapped_fallback (fun _ _ => samplePath 1 2 3)
    (fun _ _ => samplePath 4 5 6) "Unknown" (fallbackPickup "P3" "R2")
    (by decide) (by decide)

/-- C8: path resolution under the "Valley" classification invokes the
provider with exactly the same destination coordinate as under the
"Locust" classification, namely LOCUST_ST_COORDS. -/
theorem valley_maps_to_locust
    (nav : (ℚ × ℚ) → (ℚ × ℚ) → PathInfo) (pickup : Pickup) :
    get_path nav "Valley" pickup =
      nav (pickup.longitude, pickup.latitude) LOCUST_ST_COORDS ∧
    get_path nav "Locust" pickup =
      nav (pickup.longitude, pickup.latitude) LOCUST_ST_COORDS := by
  constructor <;> simp [get_path]

/-- C9: if the first feature of the service response does not contain
exactly one segment, `Geography.navigate` hits the assertion and fails
(none) instead of returning metrics built from one of the segments. -/
theorem navigate_multiseg_fails (directions : OrsFeature)
    (rest : List OrsFeature) (h : directions.segments.length ≠ 1) :
    navigate (directions :: rest) = none := by
  cases hs : directions.segments with
  | nil => simp [navigate, hs]
  | cons s1 tail =>
    cases tail with
    | nil => exact absurd (by simp [hs]) h
    | cons s2 ss => simp [navigate, hs]

theorem navigate_multiseg_fails_witness :
    navigate [{ coordinates := [], ascent := 1, descent := 2,
                segments := [{ distance := 3 }, { distance := 4 }] }] =
      none :=
  navigate_multiseg_fails
    { coordinates := [], ascent := 1, descent := 2,
      segments := [{ distance := 3 }, { distance := 4 }] } [] (by decide)

/-- C3 (code bug): when all pickups share one raw value for an indicator
(here a single pickup, so min == max), the normalization division in
`score_pickups` divides by zero (a ZeroDivisionError in the source,
none here); no pickup is assigned the constant 0 the spec requires. -/
theorem degenerate_single_pickup_errors :
    score_pickups ["ascent"] [samplePickup "P1" "R1" 5 1 1] = none := by
  with_unfolding_all decide

/- Helper lemmas about the dict model. -/

theorem dictGet_dictSet_self (l : List (String × ℚ)) (k : String) (v : ℚ) :
    dictGet (dictSet l k v) k = some v := by
  induction l with
  | nil => simp [dictSet, dictGet]
  | cons kv rest ih =>
    by_cases h : kv.1 = k
    · simp [dictSet, h, dictGet]
    · simp [dictSet, h, dictGet, ih]

theorem dictGet_dictSet_ne (l : List (String × ℚ)) (k k' : String) (v : ℚ)
    (h : k' ≠ k) : dictGet (dictSet l k v) k' = dictGet l k' := by
  induction l with
  | nil => simp [dictSet, dictGet, Ne.symm h]
  | cons kv rest ih =>
    by_cases hk : kv.1 = k
    · have hne : kv.1 ≠ k' := by rw [hk]; exact Ne.symm h
      simp [dictSet, hk, dictGet, hne, Ne.symm h]
    · simp [dictSet, hk, dictGet, ih]

theorem dictSet_keys_sub (l : List (String × ℚ)) (k x : String) (v : ℚ)
    (hx : x ∈ (dictSet l k v).map Prod.fst) :
    x ∈ l.map Prod.fst ∨ x = k := by
  induction l with
  | nil =>
    right
    simpa [dictSet] using hx
  | cons kv rest ih =>
    by_cases hk : kv.1 = k
    · rw [show dictSet (kv :: rest) k v = (kv.1, v) :: rest from by
        simp [dictSet, hk]] at hx
      rw [List.map_cons] at hx
      rcases List.mem_cons.mp hx with h2 | h2
      · left; rw [List.map_cons]; exact List.mem_cons.mpr (Or.inl h2)
      · left; rw [List.map_cons]; exact List.mem_cons.mpr (Or.inr h2)
    · rw [show dictSet (kv :: rest) k v = kv :: dictSet rest k v from by
        simp [dictSet, hk]] at hx
      rw [List.map_cons] at hx
      rcases List.mem_cons.mp hx with h2 | h2
      · left; rw [List.map_cons]; exact List.mem_cons.mpr (Or.inl h2)
      · rcases ih h2 with h3 | h3
        · left; rw [List.map_cons]; exact List.mem_cons.mpr (Or.inr h3)
        · right; exact h3

theorem dictSet_keys_nodup (l : List (String × ℚ)) (k : String) (v : ℚ)
    (h : (l.map Prod.fst).Nodup) : ((dictSet l k v).map Prod.fst).Nodup := by
  induction l with
  | nil => simp [dictSet]
  | cons kv rest ih =>
    simp only [List.map_cons, List.nodup_cons] at h
    by_cases hk : kv.1 = k
    · rw [show dictSet (kv :: rest) k v = (kv.1, v) :: rest from by
        simp [dictSet, hk]]
      simp only [List.map_cons, List.nodup_cons]
      exact ⟨h.1, h.2⟩
    · rw [show dictSet (kv :: rest) k v = kv :: dictSet rest k v from by
        simp [dictSet, hk]]
      simp only [List.map_cons, List.nodup_cons]
      refine ⟨fun hmem => ?_, ih h.2⟩
      rcases dictSet_keys_sub rest k kv.1 v hmem with h2 | h2
      · exact h.1 h2
      · exact hk h2

theorem dictGet_some_mem (l : List (String × ℚ)) (k : String) (v : ℚ)
    (h : dictGet l k = some v) : (k, v) ∈ l := by
  induction l with
  | nil => simp [dictGet] at h
  | cons kv rest ih =>
    obtain ⟨k1, v1⟩ := kv
    by_cases hk : k1 = k
    · simp only [dictGet] at h
      rw [if_pos hk] at h
      simp at h
      subst hk
      rw [← h]
      exact List.mem_cons_self _ _
    · simp only [dictGet] at h
      rw [if_neg hk] at h
      exact List.mem_cons_of_mem _ (ih h)

theorem dictGet_map_keyfun (g : String → ℚ → ℚ) (l : List (String × ℚ))
    (k : String) :
    dictGet (l.map (fun rv => (rv.1, g rv.1 rv.2))) k =
      (dictGet l k).map (fun v => g k v) := by
  induction l with
  | nil => simp [dictGet]
  | cons kv rest ih =>
    by_cases hk : kv.1 = k
    · simp [dictGet, hk]
    · simp [dictGet, hk, ih]

/- Helper lemmas about the running minimum and maximum. -/

theorem loopMin_ne_none (x : ℚ) (xs : List ℚ) : loopMin (x :: xs) ≠ none := by
  unfold loopMin
  cases loopMin xs <;> simp

theorem loopMax_ne_none (x : ℚ) (xs : List ℚ) : loopMax (x :: xs) ≠ none := by
  unfold loopMax
  cases loopMax xs <;> simp

theorem loopMin_le (l : List ℚ) (m : ℚ) (h : loopMin l = some m) :
    ∀ x ∈ l, m ≤ x := by
  induction l generalizing m with
  | nil => simp [loopMin] at h
  | cons y ys ih =>
    intro x hx
    unfold loopMin at h
    cases hys : loopMin ys with
    | none =>
      rw [hys] at h
      simp at h
      cases ys with
      | nil =>
        simp at hx
        rw [hx, ← h]
      | cons z zs => exact absurd hys (loopMin_ne_none z zs)
    | some m0 =>
      rw [hys] at h
      simp at h
      rcases List.mem_cons.mp hx with hx1 | hx2
      · rw [hx1, ← h]; exact min_le_left y m0
      · calc m = min y m0 := h.symm
          _ ≤ m0 := min_le_right y m0
          _ ≤ x := ih m0 hys x hx2

theorem loopMax_le (l : List ℚ) (m : ℚ) (h : loopMax l = some m) :
    ∀ x ∈ l, x ≤ m := by
  induction l generalizing m with
  | nil => simp [loopMax] at h
  | cons y ys ih =>
    intro x hx
    unfold loopMax at h
    cases hys : loopMax ys with
    | none =>
      rw [hys] at h
      simp at h
      cases ys with
      | nil =>
        simp at hx
        rw [hx, ← h]
      | cons z zs => exact absurd hys (loopMax_ne_none z zs)
    | some m0 =>
      rw [hys] at h
      simp at h
      rcases List.mem_cons.mp hx with hx1 | hx2
      · rw [hx1, ← h]; exact le_max_left y m0
      · calc x ≤ m0 := ih m0 hys x hx2
          _ ≤ max y m0 := le_max_right y m0
          _ = m := h

theorem loopMin_mem (l : List ℚ) (m : ℚ) (h : loopMin l = some m) : m ∈ l := by
  induction l generalizing m with
  | nil => simp [loopMin] at h
  | cons y ys ih =>
    unfold loopMin at h
    cases hys : loopMin ys with
    | none =>
      rw [hys] at h
      simp at h
      simp [← h]
    | some m0 =>
      rw [hys] at h
      simp at h
      rcases min_choice y m0 with hm | hm
      · rw [← h, hm]; exact List.mem_cons_self _ _
      · rw [← h, hm]; exact List.mem_cons_of_mem _ (ih m0 hys)

theorem loopMax_mem (l : List ℚ) (m : ℚ) (h : loopMax l = some m) : m ∈ l := by
  induction l generalizing m with
  | nil => simp [loopMax] at h
  | cons y ys ih =>
    unfold loopMax at h
    cases hys : loopMax ys with
    | none =>
      rw [hys] at h
      simp at h
      simp [← h]
    | some m0 =>
      rw [hys] at h
      simp at h
      rcases max_choice y m0 with hm | hm
      · rw [← h, hm]; exact List.mem_cons_self _ _
      · rw [← h, hm]; exact List.mem_cons_of_mem _ (ih m0 hys)

/- Helper lemmas about raw-score extraction. -/

theorem extractRaws_length (f : Pickup → Option ℚ) :
    ∀ (l : List Pickup) (rs : List ℚ), extractRaws f l = some rs →
      rs.length = l.length := by
  intro l
  induction l with
  | nil =>
    intro rs h
    simp [extractRaws] at h
    simp [← h]
  | cons p ps ih =>
    intro rs h
    unfold extractRaws at h
    cases hf : f p with
    | none => rw [hf] at h; simp at h
    | some r =>
      rw [hf] at h
      cases he : extractRaws f ps with
      | none => rw [he] at h; simp at h
      | some rs0 =>
        rw [he] at h
        simp at h
        rw [← h]
        simp [ih rs0 he]

theorem extractRaws_eq_nil (f : Pickup → Option ℚ) (l : List Pickup)
    (h : extractRaws f l = some []) : l = [] := by
  cases l with
  | nil => rfl
  | cons p ps =>
    unfold extractRaws at h
    cases hf : f p with
    | none => rw [hf] at h; simp at h
    | some r =>
      rw [hf] at h
      cases he : extractRaws f ps with
      | none => rw [he] at h; simp at h
      | some rs0 => rw [he] at h; simp at h

theorem extractRaws_zip (f : Pickup → Option ℚ) :
    ∀ (l : List Pickup) (rs : List ℚ), extractRaws f l = some rs →
      ∀ pr ∈ l.zip rs, f pr.1 = some pr.2 := by
  intro l
  induction l with
  | nil =>
    intro rs h pr hpr
    simp at hpr
  | cons p ps ih =>
    intro rs h pr hpr
    unfold extractRaws at h
    cases hf : f p with
    | none => rw [hf] at h; simp at h
    | some r =>
      rw [hf] at h
      cases he : extractRaws f ps with
      | none => rw [he] at h; simp at h
      | some rs0 =>
        rw [he] at h
        simp at h
        rw [← h] at hpr
        rw [List.zip_cons_cons] at hpr
        rcases List.mem_cons.mp hpr with h2 | h2
        · rw [h2]; exact hf
        · exact ih rs0 he pr h2

theorem extractRaws_mem_src (f : Pickup → Option ℚ) :
    ∀ (l : List Pickup) (rs : List ℚ), extractRaws f l = some rs →
      ∀ x ∈ rs, ∃ p ∈ l, f p = some x := by
  intro l
  induction l with
  | nil =>
    intro rs h x hx
    simp [extractRaws] at h
    subst h
    simp at hx
  | cons p ps ih =>
    intro rs h x hx
    unfold extractRaws at h
    cases hf : f p with
    | none => rw [hf] at h; simp at h
    | some r =>
      rw [hf] at h
      cases he : extractRaws f ps with
      | none => rw [he] at h; simp at h
      | some rs0 =>
        rw [he] at h
        simp at h
        rw [← h] at hx
        rcases List.mem_cons.mp hx with h2 | h2
        · exact ⟨p, List.mem_cons_self _ _, by rw [hf, h2]⟩
        · obtain ⟨q, hq, hfq⟩ := ih rs0 he x h2
          exact ⟨q, List.mem_cons_of_mem _ hq, hfq⟩

theorem extractRaws_mem_raw (f : Pickup → Option ℚ) :
    ∀ (l : List Pickup) (rs : List ℚ), extractRaws f l = some rs →
      ∀ p ∈ l, ∀ r, f p = some r → r ∈ rs := by
  intro l
  induction l with
  | nil =>
    intro rs h p hp
    simp at hp
  | cons q qs ih =>
    intro rs h p hp r hr
    unfold extractRaws at h
    cases hf : f q with
    | none => rw [hf] at h; simp at h
    | some r0 =>
      rw [hf] at h
      cases he : extractRaws f qs with
      | none => rw [he] at h; simp at h
      | some rs0 =>
        rw [he] at h
        simp at h
        rw [← h]
        rcases List.mem_cons.mp hp with h2 | h2
        · rw [h2] at hr
          rw [hf] at hr
          simp at hr
          rw [hr]
          exact List.mem_cons_self _ _
        · exact List.mem_cons_of_mem _ (ih rs0 he p h2 r hr)

theorem extractRaws_fail (f : Pickup → Option ℚ) (l : List Pickup) (p : Pickup)
    (hp : p ∈ l) (hn : f p = none) : extractRaws f l = none := by
  induction l with
  | nil => simp at hp
  | cons q qs ih =>
    rcases List.mem_cons.mp hp with h2 | h2
    · unfold extractRaws
      rw [h2] at hn
      rw [hn]
    · unfold extractRaws
      rw [ih h2]
      cases hf : f q <;> rfl

theorem extractRaws_congr (f : Pickup → Option ℚ) (hf : PathOnly f) :
    ∀ (l1 l2 : List Pickup), l1.map Pickup.path = l2.map Pickup.path →
      extractRaws f l1 = extractRaws f l2 := by
  intro l1
  induction l1 with
  | nil =>
    intro l2 h
    cases l2 with
    | nil => rfl
    | cons q qs => simp at h
  | cons p ps ih =>
    intro l2 h
    cases l2 with
    | nil => simp at h
    | cons q qs =>
      simp only [List.map_cons, List.cons.injEq] at h
      unfold extractRaws
      rw [hf p q h.1, ih qs h.2]

/- Helper lemmas about indicator resolution. -/

theorem lookupIndicator_spec (name : String) (i : Indicator)
    (h : lookupIndicator name = some i) : i.2 = name ∧ PathOnly i.1 := by
  unfold lookupIndicator at h
  cases hf : difficulty_indicators.find? (fun entry => entry.1 == name) with
  | none => rw [hf] at h; simp at h
  | some entry =>
    rw [hf] at h
    simp at h
    have hmem := List.mem_of_find?_eq_some hf
    have hpred := List.find?_some hf
    have hname : entry.1 = name := by simpa using hpred
    rw [← h]
    simp only [difficulty_indicators, List.mem_cons, List.not_mem_nil,
      or_false] at hmem
    rcases hmem with h1 | h1 | h1 <;> subst h1 <;>
      exact ⟨hname, fun p q hpq => by simp only [hpq]⟩

theorem resolveIndicators_keys :
    ∀ (names : List String) (inds : List Indicator),
      resolveIndicators names = some inds →
      inds.map (fun i => i.2) = names := by
  intro names
  induction names with
  | nil =>
    intro inds h
    simp [resolveIndicators] at h
    simp [← h]
  | cons n rest ih =>
    intro inds h
    unfold resolveIndicators at h
    cases hl : lookupIndicator n with
    | none => rw [hl] at h; simp at h
    | some i =>
      rw [hl] at h
      cases hr : resolveIndicators rest with
      | none => rw [hr] at h; simp at h
      | some is =>
        rw [hr] at h
        simp at h
        rw [← h]
        simp [ih is hr, (lookupIndicator_spec n i hl).1]

theorem resolveIndicators_lookup :
    ∀ (names : List String) (inds : List Indicator) (n : String),
      resolveIndicators names = some inds → n ∈ names →
      ∃ i, lookupIndicator n = some i ∧ i ∈ inds := by
  intro names
  induction names with
  | nil =>
    intro inds n h hn
    simp at hn
  | cons m rest ih =>
    intro inds n h hn
    unfold resolveIndicators at h
    cases hl : lookupIndicator m with
    | none => rw [hl] at h; simp at h
    | some i =>
      rw [hl] at h
      cases hr : resolveIndicators rest with
      | none => rw [hr] at h; simp at h
      | some is =>
        rw [hr] at h
        simp at h
        rcases List.mem_cons.mp hn with h2 | h2
        · rw [h2]
          exact ⟨i, hl, by rw [← h]; exact List.mem_cons_self _ _⟩
        · obtain ⟨j, hj, hjm⟩ := ih is n hr h2
          exact ⟨j, hj, by rw [← h]; exact List.mem_cons_of_mem _ hjm⟩

theorem resolveIndicators_pathOnly :
    ∀ (names : List String) (inds : List Indicator),
      resolveIndicators names = some inds → ∀ i ∈ inds, PathOnly i.1 := by
  intro names
  induction names with
  | nil =>
    intro inds h i hi
    simp [resolveIndicators] at h
    subst h
    simp at hi
  | cons n rest ih =>
    intro inds h i hi
    unfold resolveIndicators at h
    cases hl : lookupIndicator n with
    | none => rw [hl] at h; simp at h
    | some j =>
      rw [hl] at h
      cases hr : resolveIndicators rest with
      | none => rw [hr] at h; simp at h
      | some is =>
        rw [hr] at h
        simp at h
        rw [← h] at hi
        rcases List.mem_cons.mp hi with h2 | h2
        · rw [h2]; exact (lookupIndicator_spec n j hl).2
        · exact ih is hr i h2

/- Helper lemmas about scoring one indicator. -/

theorem scoreIndicator_inv (f : Pickup → Option ℚ) (key : String)
    (t t' : List Pickup) (h : scoreIndicator f key t = some t') :
    (t = [] ∧ t' = []) ∨
    ∃ raws mn mx, extractRaws f t = some raws ∧ loopMin raws = some mn ∧
      loopMax raws = some mx ∧ mx - mn ≠ 0 ∧
      t' = (t.zip raws).map (applyScore key mn mx) := by
  unfold scoreIndicator at h
  cases he : extractRaws f t with
  | none => rw [he] at h; simp at h
  | some raws =>
    simp only [he] at h
    cases hmn : loopMin raws with
    | none =>
      have hraws : raws = [] := by
        cases raws with
        | nil => rfl
        | cons r rest => exact absurd hmn (loopMin_ne_none r rest)
      left
      simp only [hraws, loopMin, loopMax] at h
      simp at h
      have ht : t = [] := extractRaws_eq_nil f t (hraws ▸ he)
      exact ⟨ht, by rw [← h, ht]⟩
    | some mn =>
      cases hmx : loopMax raws with
      | none =>
        have hraws : raws = [] := by
          cases raws with
          | nil => rfl
          | cons r rest => exact absurd hmx (loopMax_ne_none r rest)
        rw [hraws] at hmn
        simp [loopMin] at hmn
      | some mx =>
        simp only [hmn, hmx] at h
        by_cases hz : mx - mn = 0
        · rw [if_pos hz] at h
          simp at h
        · rw [if_neg hz] at h
          simp at h
          exact Or.inr ⟨raws, mn, mx, rfl, hmn, hmx, hz, h.symm⟩

theorem scoreIndicator_paths (f : Pickup → Option ℚ) (key : String)
    (t t' : List Pickup) (h : scoreIndicator f key t = some t') :
    t'.map Pickup.path = t.map Pickup.path := by
  rcases scoreIndicator_inv f key t t' h with ⟨ht, ht'⟩ |
    ⟨raws, mn, mx, he, hmn, hmx, hz, ht'⟩
  · rw [ht, ht']
  · have hlen : t.length ≤ raws.length :=
      le_of_eq (extractRaws_length f t raws he).symm
    rw [ht', List.map_map]
    have h1 : ((fun q : Pickup => q.path) ∘ applyScore key mn mx) =
        fun pr : Pickup × ℚ => pr.1.path := rfl
    rw [h1]
    have h2 : (fun pr : Pickup × ℚ => pr.1.path) =
        ((fun q : Pickup => q.path) ∘ Prod.fst) := rfl
    rw [h2, ← List.map_map, List.map_fst_zip t raws hlen]

theorem scoreIndicator_preserve (f : Pickup → Option ℚ) (key : String)
    (t t' : List Pickup) (k' : String)
    (h : scoreIndicator f key t = some t') (hk : k' ≠ key) :
    t'.map (fun q => (q.path, dictGet q.difficulty k')) =
      t.map (fun q => (q.path, dictGet q.difficulty k')) := by
  rcases scoreIndicator_inv f key t t' h with ⟨ht, ht'⟩ |
    ⟨raws, mn, mx, he, hmn, hmx, hz, ht'⟩
  · rw [ht, ht']
  · have hlen : t.length ≤ raws.length :=
      le_of_eq (extractRaws_length f t raws he).symm
    rw [ht', List.map_map]
    have h1 : ∀ pr ∈ t.zip raws,
        ((fun q : Pickup => (q.path, dictGet q.difficulty k')) ∘
          applyScore key mn mx) pr =
        (pr.1.path, dictGet pr.1.difficulty k') := by
      intro pr _
      simp only [Function.comp_apply, applyScore]
      rw [dictGet_dictSet_ne _ _ _ _ hk]
    rw [List.map_congr_left h1]
    have h2 : (fun pr : Pickup × ℚ => (pr.1.path, dictGet pr.1.difficulty k')) =
        ((fun q : Pickup => (q.path, dictGet q.difficulty k')) ∘ Prod.fst) :=
      rfl
    rw [h2, ← List.map_map, List.map_fst_zip t raws hlen]

theorem scoreIndicator_char (f : Pickup → Option ℚ) (key : String)
    (t t' : List Pickup) (h : scoreIndicator f key t = some t')
    (hf : PathOnly f) :
    ∀ q ∈ t', ∃ raws mn mx r,
      extractRaws f t' = some raws ∧ loopMin raws = some mn ∧
      loopMax raws = some mx ∧ mx - mn ≠ 0 ∧ f q = some r ∧
      dictGet q.difficulty key = some ((r - mn) / (mx - mn)) := by
  intro q hq
  rcases scoreIndicator_inv f key t t' h with ⟨ht, ht'⟩ |
    ⟨raws, mn, mx, he, hmn, hmx, hz, ht'⟩
  · rw [ht'] at hq; simp at hq
  · have he' : extractRaws f t' = some raws := by
      rw [extractRaws_congr f hf t' t (scoreIndicator_paths f key t t' h)]
      exact he
    rw [ht'] at hq
    rw [List.mem_map] at hq
    obtain ⟨pr, hpr, hqe⟩ := hq
    have hfr : f pr.1 = some pr.2 := extractRaws_zip f t raws he pr hpr
    have hpath : q.path = pr.1.path := by rw [← hqe]; rfl
    have hfq : f q = some pr.2 := by rw [hf q pr.1 hpath]; exact hfr
    refine ⟨raws, mn, mx, pr.2, he', hmn, hmx, hz, hfq, ?_⟩
    rw [← hqe]
    exact dictGet_dictSet_self _ _ _

theorem scoreIndicator_nodupKeys (f : Pickup → Option ℚ) (key : String)
    (t t' : List Pickup) (h : scoreIndicator f key t = some t')
    (ht : ∀ p ∈ t, (p.difficulty.map Prod.fst).Nodup) :
    ∀ q ∈ t', (q.difficulty.map Prod.fst).Nodup := by
  intro q hq
  rcases scoreIndicator_inv f key t t' h with ⟨ht0, ht'⟩ |
    ⟨raws, mn, mx, he, hmn, hmx, hz, ht'⟩
  · rw [ht'] at hq; simp at hq
  · rw [ht'] at hq
    rw [List.mem_map] at hq
    obtain ⟨pr, hpr, hqe⟩ := hq
    have hp : pr.1 ∈ t := (List.of_mem_zip hpr).1
    rw [← hqe]
    exact dictSet_keys_nodup _ _ _ (ht pr.1 hp)

/- Helper lemmas about the outer scoring loop. -/

theorem scoreAll_paths :
    ∀ (inds : List Indicator) (t res : List Pickup),
      scoreAll inds t = some res →
      res.map Pickup.path = t.map Pickup.path := by
  intro inds
  induction inds with
  | nil =>
    intro t res h
    simp [scoreAll] at h
    rw [h]
  | cons i rest ih =>
    intro t res h
    unfold scoreAll at h
    cases hs : scoreIndicator i.1 i.2 t with
    | none => rw [hs] at h; simp at h
    | some t1 =>
      rw [hs] at h
      calc res.map Pickup.path = t1.map Pickup.path := ih t1 res h
        _ = t.map Pickup.path := scoreIndicator_paths i.1 i.2 t t1 hs

theorem scoreAll_preserve :
    ∀ (inds : List Indicator) (t res : List Pickup) (k' : String),
      scoreAll inds t = some res → (∀ i ∈ inds, i.2 ≠ k') →
      res.map (fun q => (q.path, dictGet q.difficulty k')) =
        t.map (fun q => (q.path, dictGet q.difficulty k')) := by
  intro inds
  induction inds with
  | nil =>
    intro t res k' h hk
    simp [scoreAll] at h
    rw [h]
  | cons i rest ih =>
    intro t res k' h hk
    unfold scoreAll at h
    cases hs : scoreIndicator i.1 i.2 t with
    | none => rw [hs] at h; simp at h
    | some t1 =>
      rw [hs] at h
      calc res.map (fun q => (q.path, dictGet q.difficulty k'))
          = t1.map (fun q => (q.path, dictGet q.difficulty k')) :=
            ih t1 res k' h (fun j hj => hk j (List.mem_cons_of_mem _ hj))
        _ = t.map (fun q => (q.path, dictGet q.difficulty k')) :=
            scoreIndicator_preserve i.1 i.2 t t1 k' hs
              (Ne.symm (hk i (List.mem_cons_self _ _)))

theorem scoreAll_nodupKeys :
    ∀ (inds : List Indicator) (t res : List Pickup),
      scoreAll inds t = some res →
      (∀ p ∈ t, (p.difficulty.map Prod.fst).Nodup) →
      ∀ q ∈ res, (q.difficulty.map Prod.fst).Nodup := by
  intro inds
  induction inds with
  | nil =>
    intro t res h ht q hq
    simp [scoreAll] at h
    subst h
    exact ht q hq
  | cons i rest ih =>
    intro t res h ht q hq
    unfold scoreAll at h
    cases hs : scoreIndicator i.1 i.2 t with
    | none => rw [hs] at h; simp at h
    | some t1 =>
      rw [hs] at h
      exact ih t1 res h (scoreIndicator_nodupKeys i.1 i.2 t t1 hs ht) q hq

theorem scoreAll_fail :
    ∀ (inds : List Indicator) (t : List Pickup) (i : Indicator),
      i ∈ inds → PathOnly i.1 → (∃ p ∈ t, i.1 p = none) →
      scoreAll inds t = none := by
  intro inds
  induction inds with
  | nil =>
    intro t i hi
    simp at hi
  | cons j rest ih =>
    intro t i hi hpo hex
    obtain ⟨p, hp, hnone⟩ := hex
    rcases List.mem_cons.mp hi with h2 | h2
    · have hsi : scoreIndicator j.1 j.2 t = none := by
        rw [← h2]
        unfold scoreIndicator
        rw [extractRaws_fail i.1 t p hp hnone]
      unfold scoreAll
      rw [hsi]
    · unfold scoreAll
      cases hs : scoreIndicator j.1 j.2 t with
      | none => rfl
      | some t1 =>
        apply ih t1 i h2 hpo
        have hpaths := scoreIndicator_paths j.1 j.2 t t1 hs
        have hmem : p.path ∈ t1.map Pickup.path := by
          rw [hpaths]
          exact List.mem_map_of_mem _ hp
        rw [List.mem_map] at hmem
        obtain ⟨p1, hp1, hpe⟩ := hmem
        exact ⟨p1, hp1, by rw [hpo p1 p hpe]; exact hnone⟩

theorem scoreAll_char :
    ∀ (inds : List Indicator) (t res : List Pickup),
      scoreAll inds t = some res →
      ((inds.map (fun i => i.2)).Nodup) →
      (∀ i ∈ inds, PathOnly i.1) →
      ∀ i ∈ inds, ∀ q ∈ res, ∃ raws mn mx r,
        extractRaws i.1 res = some raws ∧ loopMin raws = some mn ∧
        loopMax raws = some mx ∧ mx - mn ≠ 0 ∧ i.1 q = some r ∧
        dictGet q.difficulty i.2 = some ((r - mn) / (mx - mn)) := by
  intro inds
  induction inds with
  | nil =>
    intro t res h hnd hpo i hi
    simp at hi
  | cons j rest ih =>
    intro t res h hnd hpo i hi q hq
    unfold scoreAll at h
    cases hs : scoreIndicator j.1 j.2 t with
    | none => rw [hs] at h; simp at h
    | some t1 =>
      rw [hs] at h
      simp only [List.map_cons, List.nodup_cons] at hnd
      rcases List.mem_cons.mp hi with h2 | h2
      · subst h2
        have hkey : ∀ jj ∈ rest, jj.2 ≠ i.2 := by
          intro jj hjj heq
          exact hnd.1 (heq ▸ List.mem_map_of_mem _ hjj)
        have hpres := scoreAll_preserve rest t1 res i.2 h hkey
        have hqmem : (q.path, dictGet q.difficulty i.2) ∈
            t1.map (fun q2 => (q2.path, dictGet q2.difficulty i.2)) := by
          rw [← hpres]
          exact List.mem_map_of_mem _ hq
        rw [List.mem_map] at hqmem
        obtain ⟨q1, hq1, hpair⟩ := hqmem
        rw [Prod.mk.injEq] at hpair
        obtain ⟨hpath1, hdg1⟩ := hpair
        have hpoi : PathOnly i.1 := hpo i (List.mem_cons_self _ _)
        obtain ⟨raws1, mn, mx, r, he1, hmn, hmx, hz, hfq1, hdgq1⟩ :=
          scoreIndicator_char i.1 i.2 t t1 hs hpoi q1 hq1
        refine ⟨raws1, mn, mx, r, ?_, hmn, hmx, hz, ?_, ?_⟩
        · rw [extractRaws_congr i.1 hpoi res t1 (scoreAll_paths rest t1 res h)]
          exact he1
        · rw [hpoi q q1 hpath1.symm]
          exact hfq1
        · rw [← hdg1]
          exact hdgq1
      · exact ih t1 res h hnd.2
          (fun jj hjj => hpo jj (List.mem_cons_of_mem _ hjj)) i h2 q hq

/- Helper lemmas lifting the above to score_pickups. -/

theorem score_pickups_inv (args : List String) (t res : List Pickup)
    (h : score_pickups args t = some res) :
    ∃ inds, resolveIndicators args = some inds ∧ scoreAll inds t = some res := by
  unfold score_pickups at h
  cases hr : resolveIndicators args with
  | none => rw [hr] at h; simp at h
  | some inds =>
    rw [hr] at h
    exact ⟨inds, rfl, h⟩

theorem score_pickups_nodupKeys (args : List String) (t res : List Pickup)
    (h : score_pickups args t = some res)
    (ht : ∀ p ∈ t, (p.difficulty.map Prod.fst).Nodup) :
    ∀ q ∈ res, (q.difficulty.map Prod.fst).Nodup := by
  obtain ⟨inds, hr, hs⟩ := score_pickups_inv args t res h
  exact scoreAll_nodupKeys inds t res hs ht

theorem score_pickups_char (args : List String) (t res : List Pickup)
    (name : String) (hnd : args.Nodup) (h : score_pickups args t = some res)
    (hname : name ∈ args) :
    ∃ i, lookupIndicator name = some i ∧ ∀ q ∈ res, ∃ raws mn mx r,
      extractRaws i.1 res = some raws ∧ loopMin raws = some mn ∧
      loopMax raws = some mx ∧ mx - mn ≠ 0 ∧ i.1 q = some r ∧
      dictGet q.difficulty name = some ((r - mn) / (mx - mn)) := by
  obtain ⟨inds, hr, hs⟩ := score_pickups_inv args t res h
  obtain ⟨i, hi, him⟩ := resolveIndicators_lookup args inds name hr hname
  have hkeys : inds.map (fun j => j.2) = args := resolveIndicators_keys args inds hr
  have hnd2 : (inds.map (fun j => j.2)).Nodup := by rw [hkeys]; exact hnd
  have hpo : ∀ j ∈ inds, PathOnly j.1 := resolveIndicators_pathOnly args inds hr
  have hkey : i.2 = name := (lookupIndicator_spec name i hi).1
  refine ⟨i, hi, fun q hq => ?_⟩
  obtain ⟨raws, mn, mx, r, he, hmn, hmx, hz, hfq, hdg⟩ :=
    scoreAll_char inds t res hs hnd2 hpo i him q hq
  rw [hkey] at hdg
  exact ⟨raws, mn, mx, r, he, hmn, hmx, hz, hfq, hdg⟩

/- Concrete scored tables used by witnesses. -/

def pkA : Pickup := samplePickup "P1" "R1" 10 2 3
def pkB : Pickup := samplePickup "P2" "R1" 30 4 5
def scA : Pickup :=
  { pkA with difficulty := [("ascent", 0), ("descent", 0), ("distance", 0)] }
def scB : Pickup :=
  { pkB with difficulty := [("ascent", 1), ("descent", 0), ("distance", 0)] }

/-- C2: when `score_pickups` returns normally over a nonempty pickup
table, every stored normalized difficulty score of every requested
indicator lies in [0,1]; the degenerate min == max case never reaches
the store (it dies in the division), so a returned table carries only
in-range scores. -/
theorem score_pickups_bounded (args : List String) (t res : List Pickup)
    (hne : t ≠ []) (hnd : args.Nodup) (h : score_pickups args t = some res)
    (name : String) (hname : name ∈ args) :
    ∀ q ∈ res, ∀ v, dictGet q.difficulty name = some v → 0 ≤ v ∧ v ≤ 1 := by
  obtain ⟨i, hi, hchar⟩ := score_pickups_char args t res name hnd h hname
  intro q hq v hv
  obtain ⟨raws, mn, mx, r, he, hmn, hmx, hz, hfq, hdg⟩ := hchar q hq
  rw [hv] at hdg
  obtain rfl : v = (r - mn) / (mx - mn) := Option.some.inj hdg
  have hrmem : r ∈ raws := extractRaws_mem_raw i.1 res raws he q hq r hfq
  have hmnr : mn ≤ r := loopMin_le raws mn hmn r hrmem
  have hrmx : r ≤ mx := loopMax_le raws mx hmx r hrmem
  have hmnmx : mn < mx := by
    rcases lt_or_eq_of_le (le_trans hmnr hrmx) with h2 | h2
    · exact h2
    · exact absurd (by rw [← h2]; exact sub_self mn) hz
  have hpos : 0 < mx - mn := sub_pos.mpr hmnmx
  constructor
  · exact div_nonneg (sub_nonneg.mpr hmnr) (le_of_lt hpos)
  · rw [div_le_one hpos]
    exact sub_le_sub_right hrmx mn

theorem score_pickups_bounded_witness :
    score_pickups ["ascent"] [pkA, pkB] = some [scA, scB] ∧
    (0 ≤ (1 : ℚ) ∧ (1 : ℚ) ≤ 1) := by
  have hsp : score_pickups ["ascent"] [pkA, pkB] = some [scA, scB] := by
    with_unfolding_all decide
  exact ⟨hsp, score_pickups_bounded ["ascent"] [pkA, pkB] [scA, scB]
    (by decide) (by decide) hsp "ascent" (by decide) scB (by decide) 1
    (by decide)⟩

/-- C6: when an indicator has at least two distinct raw values among the
pickups and `score_pickups` returns normally, every pickup whose raw
value equals the running minimum of the raw scores is stored normalized
score exactly 0, and every pickup whose raw value equals the running
maximum is stored exactly 1. -/
theorem score_pickups_minmax (args : List String) (t res : List Pickup)
    (name : String) (i : Indicator)
    (hnd : args.Nodup) (h : score_pickups args t = some res)
    (hname : name ∈ args) (hi : lookupIndicator name = some i)
    (hdist : ∃ a ∈ t, ∃ b ∈ t, ∃ ra rb,
      i.1 a = some ra ∧ i.1 b = some rb ∧ ra ≠ rb) :
    ∀ q ∈ res, ∀ r raws, i.1 q = some r → extractRaws i.1 res = some raws →
      (loopMin raws = some r → dictGet q.difficulty name = some 0) ∧
      (loopMax raws = some r → dictGet q.difficulty name = some 1) := by
  obtain ⟨i2, hi2, hchar⟩ := score_pickups_char args t res name hnd h hname
  have hii : i2 = i := by
    rw [hi] at hi2; exact (Option.some.inj hi2).symm
  subst hii
  intro q hq r raws hfq hext
  obtain ⟨raws2, mn, mx, r2, he, hmn, hmx, hz, hfq2, hdg⟩ := hchar q hq
  have hraws : raws = raws2 := by
    rw [he] at hext; exact (Option.some.inj hext).symm
  have hr : r = r2 := by
    rw [hfq2] at hfq; exact (Option.some.inj hfq).symm
  constructor
  · intro hminr
    rw [hraws, hr] at hminr
    have hmnr : mn = r2 := by
      rw [hminr] at hmn; exact (Option.some.inj hmn).symm
    rw [hdg, hmnr]
    norm_num
  · intro hmaxr
    rw [hraws, hr] at hmaxr
    have hmxr : mx = r2 := by
      rw [hmaxr] at hmx; exact (Option.some.inj hmx).symm
    rw [hdg, ← hmxr, div_self hz]

theorem score_pickups_minmax_witness :
    dictGet scA.difficulty "ascent" = some 0 ∧
    dictGet scB.difficulty "ascent" = some 1 := by
  have hsp : score_pickups ["ascent"] [pkA, pkB] = some [scA, scB] := by
    with_unfolding_all decide
  have hdist : ∃ a ∈ [pkA, pkB], ∃ b ∈ [pkA, pkB], ∃ ra rb,
      (fun pickup : Pickup => pickup.path.ascent, "ascent").1 a = some ra ∧
      (fun pickup : Pickup => pickup.path.ascent, "ascent").1 b = some rb ∧
      ra ≠ rb :=
    ⟨pkA, by decide, pkB, by decide, 10, 30, rfl, rfl, by decide⟩
  have hmm := score_pickups_minmax ["ascent"] [pkA, pkB] [scA, scB] "ascent"
    (fun pickup : Pickup => pickup.path.ascent, "ascent") (by decide) hsp
    (by decide) rfl hdist
  constructor
  · exact (hmm scA (by decide) 10 [10, 30] rfl rfl).1
      (by with_unfolding_all decide)
  · exact (hmm scB (by decide) 30 [10, 30] rfl rfl).2
      (by with_unfolding_all decide)

/-- C10 (implicit): `score_pickups` can return normally only when every
pickup has a present numeric path metric for every requested indicator;
as soon as one pickup carries the no-path fallback for a requested
indicator, the whole call fails (TypeError in the source, none here)
and no score is stored for that indicator. -/
theorem score_pickups_requires_paths (args : List String) (t : List Pickup)
    (name : String) (i : Indicator) (p : Pickup)
    (hname : name ∈ args) (hi : lookupIndicator name = some i)
    (hp : p ∈ t) (hnone : i.1 p = none) :
    score_pickups args t = none := by
  unfold score_pickups
  cases hr : resolveIndicators args with
  | none => rfl
  | some inds =>
    obtain ⟨i2, hi2, him⟩ := resolveIndicators_lookup args inds name hr hname
    have hii : i2 = i := by
      rw [hi] at hi2; exact (Option.some.inj hi2).symm
    subst hii
    exact scoreAll_fail inds t i2 him (lookupIndicator_spec name i2 hi2).2
      ⟨p, hp, hnone⟩

theorem score_pickups_requires_paths_witness :
    score_pickups ["ascent"] [fallbackPickup "P4" "R2"] = none :=
  score_pickups_requires_paths ["ascent"] [fallbackPickup "P4" "R2"] "ascent"
    (fun pickup : Pickup => pickup.path.ascent, "ascent")
    (fallbackPickup "P4" "R2") (by decide) rfl (by decide) rfl

/-- C4: the descent indicator extracts the negated raw descent
(−1 × path.descent), so after scoring, of two pickups the one with the
strictly larger raw descent holds a strictly lower normalized descent
score. -/
theorem descent_negated_lowers (args : List String) (t res : List Pickup)
    (a b : Pickup) (da db va vb : ℚ)
    (hnd : args.Nodup) (h : score_pickups args t = some res)
    (hdesc : "descent" ∈ args)
    (ha : a ∈ res) (hb : b ∈ res)
    (hda : a.path.descent = some da) (hdb : b.path.descent = some db)
    (hlt : db < da)
    (hva : dictGet a.difficulty "descent" = some va)
    (hvb : dictGet b.difficulty "descent" = some vb) :
    (∃ i, lookupIndicator "descent" = some i ∧
      ∀ p : Pickup, i.1 p = p.path.descent.map (fun d => d * (-1))) ∧
    va < vb := by
  obtain ⟨i, hi, hchar⟩ := score_pickups_char args t res "descent" hnd h hdesc
  have hie : i = (fun pickup : Pickup =>
      pickup.path.descent.map (fun d => d * (-1)), "descent") := by
    rw [show lookupIndicator "descent" = some (fun pickup : Pickup =>
      pickup.path.descent.map (fun d => d * (-1)), "descent") from rfl] at hi
    exact (Option.some.inj hi).symm
  refine ⟨⟨i, hi, by rw [hie]; intro p; rfl⟩, ?_⟩
  obtain ⟨rawsa, mna, mxa, ra, hea, hmna, hmxa, hza, hfa, hdga⟩ := hchar a ha
  obtain ⟨rawsb, mnb, mxb, rb, heb, hmnb, hmxb, hzb, hfb, hdgb⟩ := hchar b hb
  have h1 : rawsb = rawsa := by
    rw [hea] at heb; exact (Option.some.inj heb).symm
  subst h1
  have h2 : mnb = mna := by
    rw [hmna] at hmnb; exact (Option.some.inj hmnb).symm
  subst h2
  have h3 : mxb = mxa := by
    rw [hmxa] at hmxb; exact (Option.some.inj hmxb).symm
  subst h3
  have hra : ra = da * (-1) := by
    rw [hie] at hfa
    simp only [hda, Option.map_some'] at hfa
    exact (Option.some.inj hfa).symm
  have hrb : rb = db * (-1) := by
    rw [hie] at hfb
    simp only [hdb, Option.map_some'] at hfb
    exact (Option.some.inj hfb).symm
  have hveq : va = (ra - mnb) / (mxb - mnb) := by
    rw [hva] at hdga; exact Option.some.inj hdga
  have hweq : vb = (rb - mnb) / (mxb - mnb) := by
    rw [hvb] at hdgb; exact Option.some.inj hdgb
  have hmnmx : mnb < mxb := by
    have hle : mnb ≤ mxb :=
      loopMax_le rawsb mxb hmxb mnb (loopMin_mem rawsb mnb hmnb)
    rcases lt_or_eq_of_le hle with h4 | h4
    · exact h4
    · exact absurd (by rw [← h4]; exact sub_self mnb) hzb
  have hpos : 0 < mxb - mnb := sub_pos.mpr hmnmx
  have hrab : ra < rb := by
    rw [hra, hrb]
    nlinarith
  rw [hveq, hweq]
  exact (div_lt_div_iff_of_pos_right hpos).mpr (sub_lt_sub_right hrab mnb)

def pkD1 : Pickup := samplePickup "P1" "R1" 1 5 1
def pkD2 : Pickup := samplePickup "P2" "R1" 1 2 1
def scD1 : Pickup :=
  { pkD1 with difficulty := [("ascent", 0), ("descent", 0), ("distance", 0)] }
def scD2 : Pickup :=
  { pkD2 with difficulty := [("ascent", 0), ("descent", 1), ("distance", 0)] }

theorem descent_negated_lowers_witness :
    score_pickups ["descent"] [pkD1, pkD2] = some [scD1, scD2] ∧
    ((∃ i, lookupIndicator "descent" = some i ∧
      ∀ p : Pickup, i.1 p = p.path.descent.map (fun d => d * (-1))) ∧
     (0 : ℚ) < 1) := by
  have hsp : score_pickups ["descent"] [pkD1, pkD2] = some [scD1, scD2] := by
    with_unfolding_all decide
  exact ⟨hsp, descent_negated_lowers ["descent"] [pkD1, pkD2] [scD1, scD2]
    scD1 scD2 5 2 0 1 (by decide) hsp (by decide) (by decide) (by decide)
    rfl rfl (by decide) (by decide) (by decide)⟩

/- Helper lemmas for route aggregation. -/

theorem foldl_map_comm {α β : Type} (g : β → α → α) :
    ∀ (l : List β) (xs : List α),
      l.foldl (fun acc b => acc.map (g b)) xs =
        xs.map (fun x => l.foldl (fun y b => g b y) x) := by
  intro l
  induction l with
  | nil =>
    intro xs
    simp
  | cons b bs ih =>
    intro xs
    simp only [List.foldl_cons]
    rw [ih (xs.map (g b)), List.map_map]
    rfl

/-- The per-pickup sum of the values stored under key `k` in a difficulty
dict (all of them, in case of duplicate keys; the program's dicts have
unique keys). -/
def keySum (pd : List (String × ℚ)) (k : String) : ℚ :=
  ((pd.filter (fun kv => kv.1 = k)).map Prod.snd).sum

theorem keySum_zero_of_not_mem (pd : List (String × ℚ)) (k : String)
    (h : k ∉ pd.map Prod.fst) : keySum pd k = 0 := by
  unfold keySum
  rw [List.filter_eq_nil_iff.mpr]
  · rfl
  · intro kv hkv hpred
    rw [decide_eq_true_eq] at hpred
    exact h (hpred ▸ List.mem_map_of_mem Prod.fst hkv)

theorem keySum_eq_dictGet (pd : List (String × ℚ)) (k : String)
    (h : (pd.map Prod.fst).Nodup) :
    keySum pd k = (dictGet pd k).getD 0 := by
  induction pd with
  | nil => simp [keySum, dictGet]
  | cons kv rest ih =>
    simp only [List.map_cons, List.nodup_cons] at h
    by_cases hk : kv.1 = k
    · have hzero : keySum rest k = 0 :=
        keySum_zero_of_not_mem rest k (hk ▸ h.1)
      have hl : keySum (kv :: rest) k = kv.2 + keySum rest k := by
        simp [keySum, List.filter_cons, hk]
      rw [hl, hzero]
      simp [dictGet, hk]
    · have hl : keySum (kv :: rest) k = keySum rest k := by
        simp [keySum, List.filter_cons, hk]
      rw [hl, ih h.2]
      simp [dictGet, hk]

theorem entry_fold :
    ∀ (pd : List (String × ℚ)) (rv : String × ℚ),
      pd.foldl (fun rv2 kv =>
        if rv2.1 = kv.1 then (rv2.1, rv2.2 + kv.2) else rv2) rv =
      (rv.1, rv.2 + keySum pd rv.1) := by
  intro pd
  induction pd with
  | nil =>
    intro rv
    simp [keySum]
  | cons kv pd2 ih =>
    intro rv
    simp only [List.foldl_cons]
    by_cases h : rv.1 = kv.1
    · rw [if_pos h, ih]
      have hpred : kv.1 = rv.1 := h.symm
      simp [keySum, List.filter_cons, hpred, add_assoc]
    · rw [if_neg h, ih]
      have hpred : ¬(kv.1 = rv.1) := fun hh => h hh.symm
      simp [keySum, List.filter_cons, hpred]

theorem addInto_eq (rd pd : List (String × ℚ)) :
    addInto rd pd = rd.map (fun rv => (rv.1, rv.2 + keySum pd rv.1)) := by
  unfold addInto
  rw [foldl_map_comm]
  exact List.map_congr_left (fun rv _ => entry_fold pd rv)

theorem fold_addInto :
    ∀ (ps : List Pickup) (d0 : List (String × ℚ)),
      ps.foldl (fun d p => addInto d p.difficulty) d0 =
      d0.map (fun rv =>
        (rv.1, rv.2 + (ps.map (fun p => keySum p.difficulty rv.1)).sum)) := by
  intro ps
  induction ps with
  | nil =>
    intro d0
    simp
  | cons p ps2 ih =>
    intro d0
    simp only [List.foldl_cons]
    rw [ih (addInto d0 p.difficulty), addInto_eq, List.map_map]
    apply List.map_congr_left
    intro rv _
    simp [add_assoc]

theorem bump_fold :
    ∀ (ps : List Pickup) (r : Route),
      ps.foldl (fun y p => bumpRoute p y) r =
      { r with
        num_pickups := r.num_pickups +
          (ps.filter (fun p => p.route_id = r.indexnum)).length,
        difficulty := (ps.filter (fun p => p.route_id = r.indexnum)).foldl
          (fun d p => addInto d p.difficulty) r.difficulty } := by
  intro ps
  induction ps with
  | nil =>
    intro r
    simp
  | cons p ps2 ih =>
    intro r
    obtain ⟨idx, dest, rname, diff, np⟩ := r
    simp only [List.foldl_cons]
    by_cases h : p.route_id = idx
    · have hb : bumpRoute p (Route.mk idx dest rname diff np) =
          Route.mk idx dest rname (addInto diff p.difficulty) (np + 1) := by
        simp [bumpRoute, h]
      rw [hb, ih]
      simp only [List.filter_cons]
      simp [h, Route.mk.injEq]
      omega
    · have hb : bumpRoute p (Route.mk idx dest rname diff np) =
          Route.mk idx dest rname diff np := by
        simp [bumpRoute, h]
      rw [hb, ih]
      simp only [List.filter_cons]
      simp [h]

theorem dictGet_map_div (l : List (String × ℚ)) (c : ℚ) (k : String) :
    dictGet (l.map (fun kv => (kv.1, kv.2 / c))) k =
      (dictGet l k).map (fun v => v / c) :=
  dictGet_map_keyfun (fun _ b => b / c) l k

theorem dictGet_map_addfun (l : List (String × ℚ)) (s : String → ℚ)
    (k : String) :
    dictGet (l.map (fun rv => (rv.1, rv.2 + s rv.1))) k =
      (dictGet l k).map (fun v => v + s k) :=
  dictGet_map_keyfun (fun a b => b + s a) l k

theorem score_routes_inv (routes : List Route) (pickups : List Pickup)
    (r : Route) (h : r ∈ score_routes routes pickups) :
    ∃ r0 ∈ routes,
      r.num_pickups = r0.num_pickups +
        (pickups.filter (fun p => p.route_id = r0.indexnum)).length ∧
      r.num_pickups ≠ 0 ∧
      r.indexnum = r0.indexnum ∧
      r.difficulty =
        ((pickups.filter (fun p => p.route_id = r0.indexnum)).foldl
          (fun d p => addInto d p.difficulty) r0.difficulty).map
          (fun kv => (kv.1, kv.2 / (r.num_pickups : ℚ))) := by
  simp only [score_routes] at h
  rw [List.mem_filter] at h
  obtain ⟨hmem, hpred⟩ := h
  rw [decide_eq_true_eq] at hpred
  rw [foldl_map_comm] at hmem
  rw [List.map_map, List.mem_map] at hmem
  obtain ⟨r0, hr0, heq⟩ := hmem
  rw [Function.comp_apply, bump_fold] at heq
  by_cases hz : r0.num_pickups +
      (pickups.filter (fun p => p.route_id = r0.indexnum)).length = 0
  · rw [if_pos hz] at heq
    rw [← heq] at hpred
    exact absurd hz hpred
  · rw [if_neg hz] at heq
    refine ⟨r0, hr0, ?_, hpred, ?_, ?_⟩
    · rw [← heq]
    · rw [← heq]
    · rw [← heq]

/-- C7: after `score_routes`, every route whose pickup counter stayed 0
(zero attributed pickups) has been deleted: each surviving route's
counter equals its number of matching pickups and is nonzero. -/
theorem score_routes_removes_empty (routes : List Route)
    (pickups : List Pickup)
    (hinit : ∀ r0 ∈ routes, r0.num_pickups = 0) :
    ∀ r ∈ score_routes routes pickups,
      r.num_pickups ≠ 0 ∧
      r.num_pickups =
        (pickups.filter (fun p => p.route_id = r.indexnum)).length := by
  intro r hr
  obtain ⟨r0, hr0, hnum, hne, hidx, hdiff⟩ := score_routes_inv routes pickups r hr
  refine ⟨hne, ?_⟩
  rw [hnum, hinit r0 hr0, Nat.zero_add, hidx]

def routeR1 : Route := sampleRoute "R1" "Locust"
def routeR2 : Route := sampleRoute "R2" "Unknown"
def aggR1 : Route :=
  { routeR1 with
    difficulty := [("ascent", 1), ("descent", 0), ("distance", 0)],
    num_pickups := 1 }

theorem score_routes_removes_empty_witness :
    score_routes [routeR1, routeR2] [scB] = [aggR1] ∧
    (aggR1.num_pickups ≠ 0 ∧
      aggR1.num_pickups =
        (([scB]).filter (fun p => p.route_id = aggR1.indexnum)).length) := by
  have hsr : score_routes [routeR1, routeR2] [scB] = [aggR1] := by
    with_unfolding_all decide
  refine ⟨hsr, ?_⟩
  exact score_routes_removes_empty [routeR1, routeR2] [scB]
    (by intro r0 hr0; fin_cases hr0 <;> rfl) aggR1 (by rw [hsr]; decide)

/-- C1: after `score_routes` has run on the table produced by
`score_pickups`, every surviving route's difficulty value under every
indicator key equals the arithmetic mean of that key's stored
normalized score over exactly the pickups whose route_id equals the
route's identifier. -/
theorem score_routes_mean (args : List String) (t pickups : List Pickup)
    (routes : List Route)
    (hsp : score_pickups args t = some pickups)
    (ht : ∀ p ∈ t, (p.difficulty.map Prod.fst).Nodup)
    (hr0c : ∀ r0 ∈ routes, r0.num_pickups = 0)
    (hr0d : ∀ r0 ∈ routes, ∀ kv ∈ r0.difficulty, kv.2 = 0) :
    ∀ r ∈ score_routes routes pickups, ∀ k v,
      dictGet r.difficulty k = some v →
      v = ((pickups.filter (fun p => p.route_id = r.indexnum)).map
            (fun p => (dictGet p.difficulty k).getD 0)).sum /
          ((pickups.filter (fun p => p.route_id = r.indexnum)).length : ℚ) := by
  intro r hr k v hv
  obtain ⟨r0, hr0, hnum, hne, hidx, hdiff⟩ := score_routes_inv routes pickups r hr
  rw [fold_addInto] at hdiff
  rw [hdiff] at hv
  rw [dictGet_map_div] at hv
  rw [dictGet_map_addfun r0.difficulty
    (fun x => ((pickups.filter (fun p => p.route_id = r0.indexnum)).map
      (fun p => keySum p.difficulty x)).sum) k] at hv
  cases hd0 : dictGet r0.difficulty k with
  | none =>
    rw [hd0] at hv
    simp at hv
  | some v0 =>
    rw [hd0] at hv
    simp only [Option.map_some'] at hv
    have hv0 : v0 = 0 := by
      have hmem := dictGet_some_mem r0.difficulty k v0 hd0
      exact hr0d r0 hr0 (k, v0) hmem
    have hv2 : v = (v0 +
        ((pickups.filter (fun p => p.route_id = r0.indexnum)).map
          (fun p => keySum p.difficulty k)).sum) / (r.num_pickups : ℚ) :=
      (Option.some.inj hv).symm
    have hsum : ((pickups.filter (fun p => p.route_id = r0.indexnum)).map
          (fun p => keySum p.difficulty k)).sum =
        ((pickups.filter (fun p => p.route_id = r0.indexnum)).map
          (fun p => (dictGet p.difficulty k).getD 0)).sum := by
      have hnodup := score_pickups_nodupKeys args t pickups hsp ht
      refine congrArg List.sum (List.map_congr_left ?_)
      intro p hp
      exact keySum_eq_dictGet p.difficulty k
        (hnodup p (List.mem_filter.mp hp).1)
    rw [hv2, hv0, hsum, zero_add, hidx, hnum, hr0c r0 hr0, Nat.zero_add]

def aggMean : Route :=
  { routeR1 with
    difficulty := [("ascent", 1 / 2), ("descent", 0), ("distance", 0)],
    num_pickups := 2 }

theorem score_routes_mean_witness :
    score_pickups ["ascent"] [pkA, pkB] = some [scA, scB] ∧
    (1 / 2 : ℚ) =
      (([scA, scB].filter (fun p => p.route_id = aggMean.indexnum)).map
        (fun p => (dictGet p.difficulty "ascent").getD 0)).sum /
      (([scA, scB].filter
        (fun p => p.route_id = aggMean.indexnum)).length : ℚ) := by
  have hsp : score_pickups ["ascent"] [pkA, pkB] = some [scA, scB] := by
    with_unfolding_all decide
  refine ⟨hsp, ?_⟩
  exact score_routes_mean ["ascent"] [pkA, pkB] [scA, scB]
    [routeR1, routeR2] hsp (by decide) (by decide) (by decide) aggMean
    (by with_unfolding_all decide) "ascent" (1 / 2)
    (by with_unfolding_all decide)
